/-
Verification of the team-tree builder (`tree_builder.py`): a binary tree of
employees addressed by manager name, with a recursive `insert`
(locate-and-attach) and a pre-order `print_tree` rendering.

The Python classes are embedded shallowly: `EmployeeNode` becomes an
inductive with optional children, in-place mutation of child slots becomes
functional update (the operation returns the updated root), and the
messages printed to the console become an explicit list of error values,
in the order they would be printed.
-/
import Mathlib

set_option maxHeartbeats 1000000

/-- A validated side, the result of normalising the `side` argument. -/
inductive Side where
  | left
  | right
deriving DecidableEq

/-- The error messages the program can print during one `insert` call.
`slotOccupied` carries the manager name, the side and the occupant name
appearing in the printed text. -/
inductive ErrMsg where
  | invalidSide
  | noRoot
  | slotOccupied (manager side occupant : String)
  | managerNotFound (manager : String)
deriving DecidableEq

/-- `EmployeeNode` from `tree_builder.py`: a name and two optional child
slots. -/
inductive EmployeeNode where
  | mk (name : String) (left right : Option EmployeeNode)

def EmployeeNode.name : EmployeeNode → String
  | .mk n _ _ => n

def EmployeeNode.left : EmployeeNode → Option EmployeeNode
  | .mk _ l _ => l

def EmployeeNode.right : EmployeeNode → Option EmployeeNode
  | .mk _ _ r => r

/-- Number of nodes of the (sub)tree rooted at a node. -/
def size : EmployeeNode → Nat
  | .mk _ l r =>
    1 + (match l with | none => 0 | some lc => size lc)
      + (match r with | none => 0 | some rc => size rc)

/-- A direction to a child slot. -/
inductive Dir where
  | L
  | R
deriving DecidableEq

def dirOf : Side → Dir
  | .left => Dir.L
  | .right => Dir.R

/-- The node reached from `t` by following a path of directions, if any. -/
def nodeAt : EmployeeNode → List Dir → Option EmployeeNode
  | t, [] => some t
  | .mk _ l _, Dir.L :: p => match l with | none => none | some lc => nodeAt lc p
  | .mk _ _ r, Dir.R :: p => match r with | none => none | some rc => nodeAt rc p

/-- The name of the node at a path, if any. -/
def nameAt (t : EmployeeNode) (p : List Dir) : Option String :=
  (nodeAt t p).map EmployeeNode.name

/-- Python's `side.strip().lower()` (line 42), spelled out over the
string's character list: whitespace is stripped from both ends, then
letters are lowercased (the inputs of interest are ASCII). -/
def sideNorm (s : String) : String :=
  ⟨(((s.data.dropWhile Char.isWhitespace).reverse.dropWhile
      Char.isWhitespace).reverse).map Char.toLower⟩

/-- Lines 38-45 of `insert`: `None` and any string not normalising to
`"left"` or `"right"` are rejected; otherwise the validated side. -/
def parseSide (side : Option String) : Option Side :=
  match side with
  | none => none
  | some s =>
    if sideNorm s = "left" then some Side.left
    else if sideNorm s = "right" then some Side.right
    else none

def sideStr : Side → String
  | .left => "left"
  | .right => "right"

/-- The child slot selected by `getattr(current_node, side_norm)`
(line 56). -/
def slotOf (side : Side) (t : EmployeeNode) : Option EmployeeNode :=
  match side with
  | .left => t.left
  | .right => t.right

/-- `setattr(current_node, side_norm, EmployeeNode(employee_name))`
(line 60): fill the requested slot of this node with a fresh leaf. -/
def setSlot (side : Side) (e : String) : EmployeeNode → EmployeeNode
  | .mk n l r =>
    match side with
    | .left => .mk n (some (.mk e none none)) r
    | .right => .mk n l (some (.mk e none none))

/-- Lines 51-75 of `TeamTree.insert`: the recursive search-and-attach on a
node, returning (success flag, updated node, printed messages). A `none`
child slot is skipped (`if current_node.left is not None`, lines 64 and
69); a present child is searched recursively.

The re-validation of `side` and `self.root` at the top of every recursive
frame (lines 38-49) always passes in recursive calls — the call passes the
already-normalised `side_norm`, and normalisation is idempotent — so the
worker takes the validated `Side`. The Python test `current_node is
self.root` (line 73) is object identity; since the tree is acyclic and
every non-root frame receives a strict descendant of the root, it is true
exactly in the top frame, modelled by the `isRoot` flag. -/
def insertGo (manager employee : String) (side : Side) (isRoot : Bool) :
    EmployeeNode → Bool × EmployeeNode × List ErrMsg
  | .mk name l r =>
    if name = manager then
      -- Found the manager (lines 54-61)
      match slotOf side (.mk name l r) with
      | some occ =>
        (false, .mk name l r, [ErrMsg.slotOccupied manager (sideStr side) occ.name])
      | none =>
        (true, setSlot side employee (.mk name l r), [])
    else
      -- Search left (lines 63-66)
      let resL := match l with
        | none => ((false, none, []) : Bool × Option EmployeeNode × List ErrMsg)
        | some lc =>
          let q := insertGo manager employee side false lc
          (q.1, some q.2.1, q.2.2)
      if resL.1 then (true, .mk name resL.2.1 r, resL.2.2)
      else
        -- Search right (lines 68-71)
        let resR := match r with
          | none => ((false, none, []) : Bool × Option EmployeeNode × List ErrMsg)
          | some rc =>
            let q := insertGo manager employee side false rc
            (q.1, some q.2.1, q.2.2)
        if resR.1 then (true, .mk name resL.2.1 resR.2.1, resL.2.2 ++ resR.2.2)
        else
          -- Not found below this node (lines 73-75)
          (false, .mk name resL.2.1 resR.2.1,
            resL.2.2 ++ resR.2.2 ++
              (if isRoot then [ErrMsg.managerNotFound manager] else []))

/-- Result of one top-level `insert` call: the returned flag, the tree
afterwards, and the messages printed. -/
structure InsertResult where
  ok : Bool
  tree : Option EmployeeNode
  msgs : List ErrMsg

/-- `TeamTree.insert(manager_name, employee_name, side)` called from the
top (with `current_node` defaulted): validation (lines 38-49) followed by
the recursive search from the root. -/
def TeamTree.insert (t : Option EmployeeNode) (manager employee : String)
    (side : Option String) : InsertResult :=
  match side with
  | none => ⟨false, t, [ErrMsg.invalidSide]⟩
  | some s =>
    match parseSide (some s) with
    | none => ⟨false, t, [ErrMsg.invalidSide]⟩
    | some sd =>
      match t with
      | none => ⟨false, t, [ErrMsg.noRoot]⟩
      | some root =>
        let res := insertGo manager employee sd true root
        ⟨res.1, some res.2.1, res.2.2⟩

/-- One printed line of `print_tree`: either the empty-tree indicator
`"(empty team)"` or an indented node line, recorded as (depth, name). -/
inductive RenderLine where
  | emptyTeam
  | entry (depth : Nat) (name : String)
deriving DecidableEq

/-- Lines 88-91 of `print_tree`: the node lines printed for the subtree at
`node`, starting at indentation `level`. -/
def preorder : EmployeeNode → Nat → List (Nat × String)
  | .mk name l r, level =>
    (level, name)
      :: ((match l with | none => [] | some lc => preorder lc (level + 1))
        ++ (match r with | none => [] | some rc => preorder rc (level + 1)))

/-- `TeamTree.print_tree()` called from the top: the list of printed
lines. -/
def render (t : Option EmployeeNode) : List RenderLine :=
  match t with
  | none => [RenderLine.emptyTeam]
  | some root => (preorder root 0).map (fun p => RenderLine.entry p.1 p.2)

/-- Tree height (number of nodes on a longest root-to-leaf path); used to
bound the recursion depth of `insert` and `print_tree`. -/
def height : EmployeeNode → Nat
  | .mk _ l r =>
    1 + max (match l with | none => 0 | some lc => height lc)
            (match r with | none => 0 | some rc => height rc)

/-- All paths to nodes of the tree, in the pre-order the traversals use
(node first, then the left subtree, then the right subtree). -/
def pathsPre : EmployeeNode → List (List Dir)
  | .mk _ l r =>
    [] :: ((match l with | none => [] | some lc => (pathsPre lc).map (List.cons Dir.L))
      ++ (match r with | none => [] | some rc => (pathsPre rc).map (List.cons Dir.R)))

/-- Replace the node at a (valid, node-denoting) path by the same node
with its requested slot filled with a fresh leaf named `e`; on an invalid
path the tree is returned unchanged. -/
def attachAt (side : Side) (e : String) : EmployeeNode → List Dir → EmployeeNode
  | t, [] => setSlot side e t
  | .mk n l r, Dir.L :: p =>
    .mk n (match l with | none => none | some lc => some (attachAt side e lc p)) r
  | .mk n l r, Dir.R :: p =>
    .mk n l (match r with | none => none | some rc => some (attachAt side e rc p))

/-- Specification-side description of the search rule `insert` actually
implements: the path of the first node — in left-to-right pre-order, but
skipping (pruning) the entire subtree of any node whose name matches the
manager and whose requested slot is occupied — whose name matches the
manager and whose requested slot is empty; `none` when the pruned search
reaches no such node. -/
def firstAttachablePath (manager : String) (side : Side) :
    EmployeeNode → Option (List Dir)
  | .mk name l r =>
    if name = manager then
      match slotOf side (.mk name l r) with
      | some _ => none
      | none => some []
    else
      match (match l with
             | none => none
             | some lc => firstAttachablePath manager side lc) with
      | some p => some (Dir.L :: p)
      | none =>
        match (match r with
               | none => none
               | some rc => firstAttachablePath manager side rc) with
        | some p => some (Dir.R :: p)
        | none => none

/-- `insertGo` instrumented with explicit recursion fuel: each recursive
frame consumes one unit, and `none` means the fuel ran out before the
call completed. Used to express that the recursion depth of `insert` is
bounded by the tree's current size. -/
def insertGoF (manager employee : String) (side : Side) :
    Nat → Bool → EmployeeNode → Option (Bool × EmployeeNode × List ErrMsg)
  | 0, _, _ => none
  | fuel + 1, isRoot, .mk name l r =>
    if name = manager then
      match slotOf side (.mk name l r) with
      | some occ =>
        some (false, .mk name l r,
          [ErrMsg.slotOccupied manager (sideStr side) occ.name])
      | none =>
        some (true, setSlot side employee (.mk name l r), [])
    else
      match (match l with
             | none =>
               some ((false, none, []) : Bool × Option EmployeeNode × List ErrMsg)
             | some lc =>
               match insertGoF manager employee side fuel false lc with
               | none => none
               | some q => some (q.1, some q.2.1, q.2.2)) with
      | none => none
      | some resL =>
        if resL.1 then some (true, .mk name resL.2.1 r, resL.2.2)
        else
          match (match r with
                 | none =>
                   some ((false, none, []) : Bool × Option EmployeeNode × List ErrMsg)
                 | some rc =>
                   match insertGoF manager employee side fuel false rc with
                   | none => none
                   | some q => some (q.1, some q.2.1, q.2.2)) with
          | none => none
          | some resR =>
            if resR.1 then
              some (true, .mk name resL.2.1 resR.2.1, resL.2.2 ++ resR.2.2)
            else
              some (false, .mk name resL.2.1 resR.2.1,
                resL.2.2 ++ resR.2.2 ++
                  (if isRoot then [ErrMsg.managerNotFound manager] else []))

/-- `preorder` (the recursion of `print_tree`) instrumented with explicit
recursion fuel, in the same way as `insertGoF`. -/
def preorderF : Nat → EmployeeNode → Nat → Option (List (Nat × String))
  | 0, _, _ => none
  | fuel + 1, .mk name l r, level =>
    match (match l with
           | none => some ([] : List (Nat × String))
           | some lc => preorderF fuel lc (level + 1)) with
    | none => none
    | some ls =>
      match (match r with
             | none => some ([] : List (Nat × String))
             | some rc => preorderF fuel rc (level + 1)) with
      | none => none
      | some rs => some ((level, name) :: (ls ++ rs))

/-- Induction over `EmployeeNode`, with hypotheses for the optional
children. -/
theorem EmployeeNode.ind (P : EmployeeNode → Prop)
    (h : ∀ n l r, (∀ lc, l = some lc → P lc) → (∀ rc, r = some rc → P rc) →
      P (EmployeeNode.mk n l r)) :
    ∀ t, P t :=
  @EmployeeNode.rec P (fun o => ∀ c, o = some c → P c)
    (fun n l r hl hr => h n l r hl hr)
    (fun _ hc => Option.noConfusion hc)
    (fun _ hv _ hc => Option.some.inj hc ▸ hv)

theorem slotOf_left (n : String) (l r : Option EmployeeNode) :
    slotOf Side.left (.mk n l r) = l := rfl

theorem slotOf_right (n : String) (l r : Option EmployeeNode) :
    slotOf Side.right (.mk n l r) = r := rfl

theorem fap_found_occ (m : String) (sd : Side) (l r : Option EmployeeNode)
    (occ : EmployeeNode) (hslot : slotOf sd (.mk m l r) = some occ) :
    firstAttachablePath m sd (.mk m l r) = none := by
  rcases l with _ | lc <;> rcases r with _ | rc <;>
    simp [firstAttachablePath, hslot]

theorem fap_found_empty (m : String) (sd : Side) (l r : Option EmployeeNode)
    (hslot : slotOf sd (.mk m l r) = none) :
    firstAttachablePath m sd (.mk m l r) = some [] := by
  rcases l with _ | lc <;> rcases r with _ | rc <;>
    simp [firstAttachablePath, hslot]

theorem fap_notfound (m n : String) (sd : Side) (l r : Option EmployeeNode)
    (hn : n ≠ m) :
    firstAttachablePath m sd (.mk n l r) =
      match (match l with
             | none => none
             | some lc => firstAttachablePath m sd lc) with
      | some p => some (Dir.L :: p)
      | none =>
        match (match r with
               | none => none
               | some rc => firstAttachablePath m sd rc) with
        | some p => some (Dir.R :: p)
        | none => none := by
  rcases l with _ | lc <;> rcases r with _ | rc <;>
    simp [firstAttachablePath, hn]

theorem insertGo_found_occ (m e : String) (sd : Side) (b : Bool)
    (l r : Option EmployeeNode) (occ : EmployeeNode)
    (hslot : slotOf sd (.mk m l r) = some occ) :
    insertGo m e sd b (.mk m l r) =
      (false, .mk m l r, [ErrMsg.slotOccupied m (sideStr sd) occ.name]) := by
  rcases l with _ | lc <;> rcases r with _ | rc <;>
    simp [insertGo, hslot]

theorem insertGo_found_empty (m e : String) (sd : Side) (b : Bool)
    (l r : Option EmployeeNode) (hslot : slotOf sd (.mk m l r) = none) :
    insertGo m e sd b (.mk m l r) =
      (true, setSlot sd e (.mk m l r), []) := by
  rcases l with _ | lc <;> rcases r with _ | rc <;>
    simp [insertGo, hslot]

theorem insertGo_notfound (m e n : String) (sd : Side) (b : Bool)
    (l r : Option EmployeeNode) (hn : n ≠ m) :
    insertGo m e sd b (.mk n l r) =
      (let resL := match l with
        | none => ((false, none, []) : Bool × Option EmployeeNode × List ErrMsg)
        | some lc =>
          let q := insertGo m e sd false lc
          (q.1, some q.2.1, q.2.2)
      if resL.1 then (true, .mk n resL.2.1 r, resL.2.2)
      else
        let resR := match r with
          | none => ((false, none, []) : Bool × Option EmployeeNode × List ErrMsg)
          | some rc =>
            let q := insertGo m e sd false rc
            (q.1, some q.2.1, q.2.2)
        if resR.1 then (true, .mk n resL.2.1 resR.2.1, resL.2.2 ++ resR.2.2)
        else
          (false, .mk n resL.2.1 resR.2.1,
            resL.2.2 ++ resR.2.2 ++
              (if b then [ErrMsg.managerNotFound m] else []))) := by
  rcases l with _ | lc <;> rcases r with _ | rc <;>
    simp [insertGo, hn]

theorem attachAt_nil (sd : Side) (e : String) (t : EmployeeNode) :
    attachAt sd e t [] = setSlot sd e t := by
  cases t
  rfl

/-- The search-and-attach worker realises exactly the pruned-first-match
search rule `firstAttachablePath` describes: it succeeds precisely when
the pruned search reaches an attachable node, it leaves the tree unchanged
when it does not, and on success it attaches the new employee at exactly
that node's requested slot. The result tree and flag do not depend on the
`isRoot` flag (which only controls the not-found message). -/
theorem insertGo_spec (m e : String) (sd : Side) :
    ∀ t, ∀ b : Bool,
      ((insertGo m e sd b t).1 = (firstAttachablePath m sd t).isSome)
    ∧ (firstAttachablePath m sd t = none → (insertGo m e sd b t).2.1 = t)
    ∧ (∀ p, firstAttachablePath m sd t = some p →
        (insertGo m e sd b t).2.1 = attachAt sd e t p) := by
  intro t
  induction t using EmployeeNode.ind with
  | h n l r ihl ihr =>
    intro b
    by_cases hn : n = m
    · subst hn
      rcases hslot : slotOf sd (.mk n l r) with _ | occ
      · rw [insertGo_found_empty n e sd b l r hslot,
            fap_found_empty n sd l r hslot]
        refine ⟨rfl, by simp, ?_⟩
        intro p hp
        simp only [Option.some.injEq] at hp
        subst hp
        rw [attachAt_nil]
      · rw [insertGo_found_occ n e sd b l r occ hslot,
            fap_found_occ n sd l r occ hslot]
        exact ⟨rfl, fun _ => rfl, fun p hp => by simp at hp⟩
    · rw [insertGo_notfound m e n sd b l r hn, fap_notfound m n sd l r hn]
      rcases l with _ | lc
      · rcases r with _ | rc
        · simp
        · obtain ⟨ih1, ih2, ih3⟩ := ihr rc rfl false
          rcases hF : firstAttachablePath m sd rc with _ | p
          · have hq : (insertGo m e sd false rc).1 = false := by
              rw [ih1, hF]; rfl
            simp [hq, hF, ih2 hF]
          · have hq : (insertGo m e sd false rc).1 = true := by
              rw [ih1, hF]; rfl
            simp only [hq, hF]
            refine ⟨rfl, by simp, ?_⟩
            intro p' hp'
            simp only [Option.some.injEq] at hp'
            subst hp'
            simp [attachAt, ih3 p hF]
      · obtain ⟨ihl1, ihl2, ihl3⟩ := ihl lc rfl false
        rcases hFL : firstAttachablePath m sd lc with _ | p
        · have hql : (insertGo m e sd false lc).1 = false := by
            rw [ihl1, hFL]; rfl
          rcases r with _ | rc
          · simp [hql, hFL, ihl2 hFL]
          · obtain ⟨ihr1, ihr2, ihr3⟩ := ihr rc rfl false
            rcases hFR : firstAttachablePath m sd rc with _ | p
            · have hqr : (insertGo m e sd false rc).1 = false := by
                rw [ihr1, hFR]; rfl
              simp [hql, hqr, hFL, hFR, ihl2 hFL, ihr2 hFR]
            · have hqr : (insertGo m e sd false rc).1 = true := by
                rw [ihr1, hFR]; rfl
              simp only [hql, hqr, hFL, hFR]
              refine ⟨by simp, by simp, ?_⟩
              intro p' hp'
              simp only [Option.some.injEq] at hp'
              subst hp'
              simp [attachAt, ihl2 hFL, ihr3 p hFR]
        · have hql : (insertGo m e sd false lc).1 = true := by
            rw [ihl1, hFL]; rfl
          simp only [hql, hFL]
          refine ⟨by simp, by simp, ?_⟩
          intro p' hp'
          rcases r with _ | rc <;> simp only [Option.some.injEq] at hp' <;>
            subst hp' <;> simp [attachAt, ihl3 p hFL]

/-- A path produced by the pruned search really denotes a node whose name
matches the manager and whose requested slot is empty. -/
theorem fap_sound (m : String) (sd : Side) :
    ∀ t, ∀ p, firstAttachablePath m sd t = some p →
      ∃ nd, nodeAt t p = some nd ∧ nd.name = m ∧ slotOf sd nd = none := by
  intro t
  induction t using EmployeeNode.ind with
  | h n l r ihl ihr =>
    intro p hp
    by_cases hn : n = m
    · subst hn
      rcases hslot : slotOf sd (.mk n l r) with _ | occ
      · rw [fap_found_empty n sd l r hslot] at hp
        simp only [Option.some.injEq] at hp
        subst hp
        exact ⟨.mk n l r, rfl, rfl, hslot⟩
      · rw [fap_found_occ n sd l r occ hslot] at hp
        simp at hp
    · rw [fap_notfound m n sd l r hn] at hp
      rcases l with _ | lc
      · rcases r with _ | rc
        · simp at hp
        · rcases hFR : firstAttachablePath m sd rc with _ | pr
          · simp only [hFR] at hp
            exact Option.noConfusion hp
          · simp only [hFR, Option.some.injEq] at hp
            subst hp
            obtain ⟨nd, h1, h2, h3⟩ := ihr rc rfl pr hFR
            exact ⟨nd, by simpa [nodeAt] using h1, h2, h3⟩
      · rcases hFL : firstAttachablePath m sd lc with _ | pl
        · rcases r with _ | rc
          · simp only [hFL] at hp
            exact Option.noConfusion hp
          · rcases hFR : firstAttachablePath m sd rc with _ | pr
            · simp only [hFL, hFR] at hp
              exact Option.noConfusion hp
            · simp only [hFL, hFR, Option.some.injEq] at hp
              subst hp
              obtain ⟨nd, h1, h2, h3⟩ := ihr rc rfl pr hFR
              exact ⟨nd, by simpa [nodeAt] using h1, h2, h3⟩
        · simp only [hFL, Option.some.injEq] at hp
          subst hp
          obtain ⟨nd, h1, h2, h3⟩ := ihl lc rfl pl hFL
          exact ⟨nd, by simpa [nodeAt] using h1, h2, h3⟩

/-- Count of "manager not found" messages printed by the worker: exactly
one — at the top frame, after both subsearches fail on a non-matching
node — and zero in every other situation. -/
theorem insertGo_mnf_count (m e : String) (sd : Side) :
    ∀ t, ∀ (b : Bool) (x : String),
      ((insertGo m e sd b t).2.2.count (ErrMsg.managerNotFound x)) =
        (if b = true ∧ t.name ≠ m ∧ (insertGo m e sd b t).1 = false ∧ x = m
         then 1 else 0) := by
  intro t
  induction t using EmployeeNode.ind with
  | h n l r ihl ihr =>
    intro b x
    by_cases hn : n = m
    · subst hn
      rcases hslot : slotOf sd (.mk n l r) with _ | occ
      · rw [insertGo_found_empty n e sd b l r hslot]
        simp [EmployeeNode.name]
      · rw [insertGo_found_occ n e sd b l r occ hslot]
        simp [EmployeeNode.name, List.count_cons]
    · rw [insertGo_notfound m e n sd b l r hn]
      have hname : (EmployeeNode.mk n l r).name = n := rfl
      rcases l with _ | lc
      · rcases r with _ | rc
        · simp only []
          rcases b with _ | _ <;>
            simp [hname, hn, List.count_cons, List.count_nil] <;>
            by_cases hx : x = m <;> (simp [hx]; try exact fun h => hx h.symm)
        · have ihr0 := ihr rc rfl false x
          simp only [Bool.false_eq_true, false_and, if_false] at ihr0
          rcases hq : (insertGo m e sd false rc).1 with _ | _
          · simp only [hq]
            rcases b with _ | _ <;>
              simp [hname, hn, hq, List.count_append, List.count_cons,
                List.count_nil, ihr0] <;>
              by_cases hx : x = m <;> (simp [hx]; try exact fun h => hx h.symm)
          · simp [hq, ihr0]
      · have ihl0 := ihl lc rfl false x
        simp only [Bool.false_eq_true, false_and, if_false] at ihl0
        rcases hql : (insertGo m e sd false lc).1 with _ | _
        · rcases r with _ | rc
          · simp only [hql]
            rcases b with _ | _ <;>
              simp [hname, hn, hql, List.count_append, List.count_cons,
                List.count_nil, ihl0] <;>
              by_cases hx : x = m <;> (simp [hx]; try exact fun h => hx h.symm)
          · have ihr0 := ihr rc rfl false x
            simp only [Bool.false_eq_true, false_and, if_false] at ihr0
            rcases hqr : (insertGo m e sd false rc).1 with _ | _
            · simp only [hql, hqr]
              rcases b with _ | _ <;>
                simp [hname, hn, hql, hqr, List.count_append, List.count_cons,
                  List.count_nil, ihl0, ihr0] <;>
                by_cases hx : x = m <;> (simp [hx]; try exact fun h => hx h.symm)
            · simp [hql, hqr, List.count_append, ihl0, ihr0]
        · simp [hql, ihl0]

theorem size_mk (n : String) (l r : Option EmployeeNode) :
    size (.mk n l r) =
      1 + (match l with | none => 0 | some lc => size lc)
        + (match r with | none => 0 | some rc => size rc) := by
  rcases l with _ | lc <;> rcases r with _ | rc <;> rfl

theorem nodeAt_nil (t : EmployeeNode) : nodeAt t [] = some t := by
  cases t
  rfl

theorem nodeAt_cons_L (n : String) (l r : Option EmployeeNode) (p : List Dir) :
    nodeAt (.mk n l r) (Dir.L :: p) =
      (match l with | none => none | some lc => nodeAt lc p) := by
  rcases l with _ | lc <;> rcases r with _ | rc <;> rfl

theorem nodeAt_cons_R (n : String) (l r : Option EmployeeNode) (p : List Dir) :
    nodeAt (.mk n l r) (Dir.R :: p) =
      (match r with | none => none | some rc => nodeAt rc p) := by
  rcases l with _ | lc <;> rcases r with _ | rc <;> rfl

theorem attachAt_cons_L (sd : Side) (e n : String) (l r : Option EmployeeNode)
    (p : List Dir) :
    attachAt sd e (.mk n l r) (Dir.L :: p) =
      .mk n (match l with | none => none | some lc => some (attachAt sd e lc p)) r := by
  rcases l with _ | lc <;> rcases r with _ | rc <;> rfl

theorem attachAt_cons_R (sd : Side) (e n : String) (l r : Option EmployeeNode)
    (p : List Dir) :
    attachAt sd e (.mk n l r) (Dir.R :: p) =
      .mk n l (match r with | none => none | some rc => some (attachAt sd e rc p)) := by
  rcases l with _ | lc <;> rcases r with _ | rc <;> rfl

theorem nodeAt_append (q : List Dir) :
    ∀ p t, nodeAt t (p ++ q) =
      (match nodeAt t p with | none => none | some nd => nodeAt nd q) := by
  intro p
  induction p with
  | nil =>
    intro t
    rw [List.nil_append, nodeAt_nil]
  | cons d p ih =>
    intro t
    cases t with
    | mk n l r =>
      cases d
      · rw [List.cons_append, nodeAt_cons_L, nodeAt_cons_L]
        rcases l with _ | lc
        · rfl
        · exact ih lc
      · rw [List.cons_append, nodeAt_cons_R, nodeAt_cons_R]
        rcases r with _ | rc
        · rfl
        · exact ih rc

theorem nodeAt_single (sd : Side) (nd : EmployeeNode) :
    nodeAt nd [dirOf sd] = slotOf sd nd := by
  cases nd with
  | mk n l r =>
    rcases sd <;>
      [rw [show dirOf Side.left = Dir.L from rfl, nodeAt_cons_L];
       rw [show dirOf Side.right = Dir.R from rfl, nodeAt_cons_R]] <;>
      [rcases l with _ | lc; rcases r with _ | rc] <;>
      simp [slotOf, EmployeeNode.left, EmployeeNode.right, nodeAt_nil]

/-- Attaching at a valid path whose slot is empty grows the tree by
exactly one node. -/
theorem attachAt_size (sd : Side) (e : String) :
    ∀ p t nd, nodeAt t p = some nd → slotOf sd nd = none →
      size (attachAt sd e t p) = size t + 1 := by
  intro p
  induction p with
  | nil =>
    intro t nd h hslot
    rw [nodeAt_nil] at h
    simp only [Option.some.injEq] at h
    subst h
    rw [attachAt_nil]
    cases t with
    | mk n l r =>
      rcases sd
      · have hl : l = none := by
          simpa [slotOf, EmployeeNode.left] using hslot
        subst hl
        rcases r with _ | rc <;> simp [setSlot, size_mk] <;> omega
      · have hr : r = none := by
          simpa [slotOf, EmployeeNode.right] using hslot
        subst hr
        rcases l with _ | lc <;> simp [setSlot, size_mk] <;> omega
  | cons d p ih =>
    intro t nd h hslot
    cases t with
    | mk n l r =>
      cases d
      · rw [nodeAt_cons_L] at h
        rcases l with _ | lc
        · exact Option.noConfusion h
        · rw [attachAt_cons_L, size_mk, size_mk]
          have := ih lc nd h hslot
          simp only []
          omega
      · rw [nodeAt_cons_R] at h
        rcases r with _ | rc
        · exact Option.noConfusion h
        · rw [attachAt_cons_R, size_mk, size_mk]
          have := ih rc nd h hslot
          simp only []
          omega

/-- After attaching, the requested slot of the matched node holds the
fresh leaf. -/
theorem attachAt_new (sd : Side) (e : String) :
    ∀ p t nd, nodeAt t p = some nd → slotOf sd nd = none →
      nodeAt (attachAt sd e t p) (p ++ [dirOf sd]) = some (.mk e none none) := by
  intro p
  induction p with
  | nil =>
    intro t nd h hslot
    rw [nodeAt_nil] at h
    simp only [Option.some.injEq] at h
    subst h
    rw [attachAt_nil, List.nil_append, nodeAt_single]
    cases t with
    | mk n l r =>
      rcases sd <;> simp [setSlot, slotOf, EmployeeNode.left, EmployeeNode.right]
  | cons d p ih =>
    intro t nd h hslot
    cases t with
    | mk n l r =>
      cases d
      · rw [nodeAt_cons_L] at h
        rcases l with _ | lc
        · exact Option.noConfusion h
        · rw [attachAt_cons_L, List.cons_append, nodeAt_cons_L]
          exact ih lc nd h hslot
      · rw [nodeAt_cons_R] at h
        rcases r with _ | rc
        · exact Option.noConfusion h
        · rw [attachAt_cons_R, List.cons_append, nodeAt_cons_R]
          exact ih rc nd h hslot

/-- Attaching at a valid path with an empty slot changes no other node:
every path other than the freshly filled slot resolves to a node with the
same name as before. -/
theorem attachAt_preserve (sd : Side) (e : String) :
    ∀ p t nd, nodeAt t p = some nd → slotOf sd nd = none →
      ∀ q, q ≠ p ++ [dirOf sd] →
        nameAt (attachAt sd e t p) q = nameAt t q := by
  intro p
  induction p with
  | nil =>
    intro t nd h hslot q hq
    rw [nodeAt_nil] at h
    simp only [Option.some.injEq] at h
    subst h
    rw [attachAt_nil]
    rw [List.nil_append] at hq
    cases t with
    | mk n l r =>
      rcases sd
      · have hl : l = none := by
          simpa [slotOf, EmployeeNode.left] using hslot
        subst hl
        rcases q with _ | ⟨d2, q2⟩
        · simp [nameAt, nodeAt_nil, setSlot, EmployeeNode.name]
        · cases d2
          · have hq2 : q2 ≠ [] := by
              intro h0
              subst h0
              exact hq rfl
            rcases q2 with _ | ⟨d3, q3⟩
            · exact absurd rfl hq2
            · simp only [nameAt, setSlot, nodeAt_cons_L]
              cases d3 <;> simp [nodeAt_cons_L, nodeAt_cons_R]
          · simp only [nameAt, setSlot, nodeAt_cons_R]
      · have hr : r = none := by
          simpa [slotOf, EmployeeNode.right] using hslot
        subst hr
        rcases q with _ | ⟨d2, q2⟩
        · simp [nameAt, nodeAt_nil, setSlot, EmployeeNode.name]
        · cases d2
          · simp only [nameAt, setSlot, nodeAt_cons_L]
          · have hq2 : q2 ≠ [] := by
              intro h0
              subst h0
              exact hq rfl
            rcases q2 with _ | ⟨d3, q3⟩
            · exact absurd rfl hq2
            · simp only [nameAt, setSlot, nodeAt_cons_R]
              cases d3 <;> simp [nodeAt_cons_L, nodeAt_cons_R]
  | cons d p ih =>
    intro t nd h hslot q hq
    cases t with
    | mk n l r =>
      cases d
      · rw [nodeAt_cons_L] at h
        rcases l with _ | lc
        · exact Option.noConfusion h
        · rw [attachAt_cons_L]
          rcases q with _ | ⟨d2, q2⟩
          · simp [nameAt, nodeAt_nil, EmployeeNode.name]
          · cases d2
            · have hq2 : q2 ≠ p ++ [dirOf sd] := by
                intro h0
                subst h0
                exact hq rfl
              simp only [nameAt, nodeAt_cons_L]
              exact ih lc nd h hslot q2 hq2
            · simp only [nameAt, nodeAt_cons_R]
      · rw [nodeAt_cons_R] at h
        rcases r with _ | rc
        · exact Option.noConfusion h
        · rw [attachAt_cons_R]
          rcases q with _ | ⟨d2, q2⟩
          · simp [nameAt, nodeAt_nil, EmployeeNode.name]
          · cases d2
            · simp only [nameAt, nodeAt_cons_L]
            · have hq2 : q2 ≠ p ++ [dirOf sd] := by
                intro h0
                subst h0
                exact hq rfl
              simp only [nameAt, nodeAt_cons_R]
              exact ih rc nd h hslot q2 hq2

/-- The name at a path, with a default for invalid paths (only applied to
valid paths). -/
def nameAtD (t : EmployeeNode) (p : List Dir) : String :=
  ((nodeAt t p).map EmployeeNode.name).getD ""

theorem preorder_mk (n : String) (l r : Option EmployeeNode) (lvl : Nat) :
    preorder (.mk n l r) lvl =
      (lvl, n)
        :: ((match l with | none => [] | some lc => preorder lc (lvl + 1))
          ++ (match r with | none => [] | some rc => preorder rc (lvl + 1))) := by
  rcases l with _ | lc <;> rcases r with _ | rc <;> rfl

theorem pathsPre_mk (n : String) (l r : Option EmployeeNode) :
    pathsPre (.mk n l r) =
      [] :: ((match l with | none => [] | some lc => (pathsPre lc).map (List.cons Dir.L))
        ++ (match r with | none => [] | some rc => (pathsPre rc).map (List.cons Dir.R))) := by
  rcases l with _ | lc <;> rcases r with _ | rc <;> rfl

theorem nameAtD_nil (n : String) (l r : Option EmployeeNode) :
    nameAtD (.mk n l r) [] = n := by
  simp [nameAtD, nodeAt_nil, EmployeeNode.name]

theorem nameAtD_cons_L (n : String) (lc : EmployeeNode) (r : Option EmployeeNode)
    (p : List Dir) : nameAtD (.mk n (some lc) r) (Dir.L :: p) = nameAtD lc p := by
  simp [nameAtD, nodeAt_cons_L]

theorem nameAtD_cons_R (n : String) (l : Option EmployeeNode) (rc : EmployeeNode)
    (p : List Dir) : nameAtD (.mk n l (some rc)) (Dir.R :: p) = nameAtD rc p := by
  simp [nameAtD, nodeAt_cons_R]

/-- The lines `print_tree` prints for a subtree are exactly its pre-order
paths, each rendered at a depth equal to the starting level plus the
path's length (its distance from the subtree root). -/
theorem preorder_eq_paths :
    ∀ t, ∀ lvl : Nat,
      preorder t lvl = (pathsPre t).map (fun p => (lvl + p.length, nameAtD t p)) := by
  intro t
  induction t using EmployeeNode.ind with
  | h n l r ihl ihr =>
    intro lvl
    rw [preorder_mk, pathsPre_mk]
    rcases l with _ | lc <;> rcases r with _ | rc
    · simp [nameAtD_nil]
    · simp only [List.map_cons, List.map_append, List.map_map, List.map_nil,
        List.nil_append, List.append_nil, nameAtD_nil, List.length_nil,
        Nat.add_zero]
      rw [ihr rc rfl (lvl + 1)]
      congr 1
      apply List.map_congr_left
      intro p _
      simp only [Function.comp_apply, nameAtD_cons_R, List.length_cons]
      have h : lvl + 1 + p.length = lvl + (p.length + 1) := by omega
      rw [h]
    · simp only [List.map_cons, List.map_append, List.map_map, List.map_nil,
        List.nil_append, List.append_nil, nameAtD_nil, List.length_nil,
        Nat.add_zero]
      rw [ihl lc rfl (lvl + 1)]
      congr 1
      apply List.map_congr_left
      intro p _
      simp only [Function.comp_apply, nameAtD_cons_L, List.length_cons]
      have h : lvl + 1 + p.length = lvl + (p.length + 1) := by omega
      rw [h]
    · simp only [List.map_cons, List.map_append, List.map_map, List.map_nil,
        List.nil_append, List.append_nil, nameAtD_nil, List.length_nil,
        Nat.add_zero]
      rw [ihl lc rfl (lvl + 1), ihr rc rfl (lvl + 1)]
      congr 1
      congr 1
      · apply List.map_congr_left
        intro p _
        simp only [Function.comp_apply, nameAtD_cons_L, List.length_cons]
        have h : lvl + 1 + p.length = lvl + (p.length + 1) := by omega
        rw [h]
      · apply List.map_congr_left
        intro p _
        simp only [Function.comp_apply, nameAtD_cons_R, List.length_cons]
        have h : lvl + 1 + p.length = lvl + (p.length + 1) := by omega
        rw [h]

theorem pathsPre_length : ∀ t, (pathsPre t).length = size t := by
  intro t
  induction t using EmployeeNode.ind with
  | h n l r ihl ihr =>
    rw [pathsPre_mk, size_mk]
    rcases l with _ | lc <;> rcases r with _ | rc
    · simp
    · have h1 := ihr rc rfl
      simp [List.length_append, List.length_map]
      omega
    · have h1 := ihl lc rfl
      simp [List.length_append, List.length_map]
      omega
    · have h1 := ihl lc rfl
      have h2 := ihr rc rfl
      simp [List.length_append, List.length_map]
      omega

theorem mem_pathsPre : ∀ t, ∀ p, p ∈ pathsPre t ↔ (nodeAt t p).isSome := by
  intro t
  induction t using EmployeeNode.ind with
  | h n l r ihl ihr =>
    intro p
    rw [pathsPre_mk]
    rcases p with _ | ⟨d, p⟩
    · simp [nodeAt_nil]
    · cases d
      · rw [nodeAt_cons_L]
        rcases l with _ | lc <;> rcases r with _ | rc <;>
          simp [List.mem_cons, List.mem_append, List.mem_map]
        · exact ihl lc rfl p
        · exact ihl lc rfl p
      · rw [nodeAt_cons_R]
        rcases l with _ | lc <;> rcases r with _ | rc <;>
          simp [List.mem_cons, List.mem_append, List.mem_map]
        · exact ihr rc rfl p
        · exact ihr rc rfl p

theorem pathsPre_nodup : ∀ t, (pathsPre t).Nodup := by
  intro t
  induction t using EmployeeNode.ind with
  | h n l r ihl ihr =>
    rw [pathsPre_mk]
    rw [List.nodup_cons]
    constructor
    · intro hmem
      rw [List.mem_append] at hmem
      rcases hmem with hm | hm <;> rcases l with _ | lc <;> rcases r with _ | rc <;>
        simp at hm
    · apply List.Nodup.append
      · rcases l with _ | lc
        · exact List.nodup_nil
        · exact (ihl lc rfl).map (List.cons_injective)
      · rcases r with _ | rc
        · exact List.nodup_nil
        · exact (ihr rc rfl).map (List.cons_injective)
      · intro x hx hx'
        rcases l with _ | lc <;> rcases r with _ | rc <;> simp at hx hx'
        obtain ⟨a, _, ha⟩ := hx
        obtain ⟨b, _, hb⟩ := hx'
        rw [← ha] at hb
        exact List.noConfusion hb (fun h _ => Dir.noConfusion h)

theorem height_mk (n : String) (l r : Option EmployeeNode) :
    height (.mk n l r) =
      1 + max (match l with | none => 0 | some lc => height lc)
              (match r with | none => 0 | some rc => height rc) := by
  rcases l with _ | lc <;> rcases r with _ | rc <;> rfl

theorem height_le_size : ∀ t, height t ≤ size t := by
  intro t
  induction t using EmployeeNode.ind with
  | h n l r ihl ihr =>
    rw [height_mk, size_mk]
    rcases l with _ | lc <;> rcases r with _ | rc <;> simp only []
    · omega
    · have := ihr rc rfl
      omega
    · have := ihl lc rfl
      omega
    · have h1 := ihl lc rfl
      have h2 := ihr rc rfl
      rcases Nat.le_total (height lc) (height rc) with h3 | h3
      · rw [Nat.max_eq_right h3]
        omega
      · rw [Nat.max_eq_left h3]
        omega

/-- With fuel at least the tree's height, the fuel-instrumented insert
worker completes and agrees with the worker itself: the recursion depth of
`insert` is bounded by the height (hence by the size) of the tree. -/
theorem insertGoF_complete (m e : String) (sd : Side) :
    ∀ t, ∀ (fuel : Nat) (b : Bool), height t ≤ fuel →
      insertGoF m e sd fuel b t = some (insertGo m e sd b t) := by
  intro t
  induction t using EmployeeNode.ind with
  | h n l r ihl ihr =>
    intro fuel b hf
    rw [height_mk] at hf
    rcases fuel with _ | fuel
    · omega
    · by_cases hn : n = m
      · subst hn
        rcases hslot : slotOf sd (.mk n l r) with _ | occ <;>
          rcases l with _ | lc <;> rcases r with _ | rc <;>
          simp [insertGoF, insertGo, hslot]
      · rcases l with _ | lc <;> rcases r with _ | rc
        · simp [insertGoF, insertGo, hn]
        · have hfr : height rc ≤ fuel := by
            simp only [] at hf
            omega
          simp [insertGoF, insertGo, hn, ihr rc rfl fuel false hfr] <;>
            split_ifs <;> rfl
        · have hfl : height lc ≤ fuel := by
            simp only [] at hf
            omega
          simp [insertGoF, insertGo, hn, ihl lc rfl fuel false hfl] <;>
            split_ifs <;> rfl
        · have hfl : height lc ≤ fuel := by
            simp only [] at hf
            rcases Nat.le_total (height lc) (height rc) with h3 | h3 <;> omega
          have hfr : height rc ≤ fuel := by
            simp only [] at hf
            rcases Nat.le_total (height lc) (height rc) with h3 | h3 <;> omega
          simp [insertGoF, insertGo, hn, ihl lc rfl fuel false hfl,
            ihr rc rfl fuel false hfr]
          split_ifs <;> rfl

/-- Same bound for the rendering recursion of `print_tree`. -/
theorem preorderF_complete :
    ∀ t, ∀ (fuel lvl : Nat), height t ≤ fuel →
      preorderF fuel t lvl = some (preorder t lvl) := by
  intro t
  induction t using EmployeeNode.ind with
  | h n l r ihl ihr =>
    intro fuel lvl hf
    rw [height_mk] at hf
    rcases fuel with _ | fuel
    · omega
    · rcases l with _ | lc <;> rcases r with _ | rc
      · simp [preorderF, preorder]
      · have hfr : height rc ≤ fuel := by
          simp only [] at hf
          omega
        simp [preorderF, preorder, ihr rc rfl fuel (lvl + 1) hfr]
      · have hfl : height lc ≤ fuel := by
          simp only [] at hf
          omega
        simp [preorderF, preorder, ihl lc rfl fuel (lvl + 1) hfl]
      · have hfl : height lc ≤ fuel := by
          simp only [] at hf
          rcases Nat.le_total (height lc) (height rc) with h3 | h3 <;> omega
        have hfr : height rc ≤ fuel := by
          simp only [] at hf
          rcases Nat.le_total (height lc) (height rc) with h3 | h3 <;> omega
        simp [preorderF, preorder, ihl lc rfl fuel (lvl + 1) hfl,
          ihr rc rfl fuel (lvl + 1) hfr]

theorem parseSide_sideStr (sd : Side) : parseSide (some (sideStr sd)) = some sd := by
  rcases sd <;> rfl

/-- C3: the documented scenario. Starting from root "Alice":
`insert("Alice","Bob","left")` succeeds giving Alice(left=Bob); then
`insert("Alice","Carol","left")` fails with SlotOccupied naming occupant
"Bob" and leaves the tree unchanged; then `insert("Bob","Dan","right")`
succeeds giving Alice(left=Bob(right=Dan)); then
`insert("Eve","Frank","left")` fails with ManagerNotFound; the final
render is the pre-order listing Alice at depth 0, Bob at depth 1, Dan at
depth 2. -/
theorem C3_scenario :
    ((TeamTree.insert (some (.mk "Alice" none none)) "Alice" "Bob" (some "left")).ok = true)
  ∧ ((TeamTree.insert (some (.mk "Alice" none none)) "Alice" "Bob" (some "left")).tree
      = some (.mk "Alice" (some (.mk "Bob" none none)) none))
  ∧ ((TeamTree.insert (some (.mk "Alice" (some (.mk "Bob" none none)) none))
        "Alice" "Carol" (some "left")).ok = false)
  ∧ ((TeamTree.insert (some (.mk "Alice" (some (.mk "Bob" none none)) none))
        "Alice" "Carol" (some "left")).msgs
      = [ErrMsg.slotOccupied "Alice" "left" "Bob"])
  ∧ ((TeamTree.insert (some (.mk "Alice" (some (.mk "Bob" none none)) none))
        "Alice" "Carol" (some "left")).tree
      = some (.mk "Alice" (some (.mk "Bob" none none)) none))
  ∧ ((TeamTree.insert (some (.mk "Alice" (some (.mk "Bob" none none)) none))
        "Bob" "Dan" (some "right")).ok = true)
  ∧ ((TeamTree.insert (some (.mk "Alice" (some (.mk "Bob" none none)) none))
        "Bob" "Dan" (some "right")).tree
      = some (.mk "Alice" (some (.mk "Bob" none (some (.mk "Dan" none none)))) none))
  ∧ ((TeamTree.insert (some (.mk "Alice" (some (.mk "Bob" none (some (.mk "Dan" none none)))) none))
        "Eve" "Frank" (some "left")).ok = false)
  ∧ ((TeamTree.insert (some (.mk "Alice" (some (.mk "Bob" none (some (.mk "Dan" none none)))) none))
        "Eve" "Frank" (some "left")).msgs = [ErrMsg.managerNotFound "Eve"])
  ∧ ((TeamTree.insert (some (.mk "Alice" (some (.mk "Bob" none (some (.mk "Dan" none none)))) none))
        "Eve" "Frank" (some "left")).tree
      = some (.mk "Alice" (some (.mk "Bob" none (some (.mk "Dan" none none)))) none))
  ∧ (render (some (.mk "Alice" (some (.mk "Bob" none (some (.mk "Dan" none none)))) none))
      = [RenderLine.entry 0 "Alice", RenderLine.entry 1 "Bob",
         RenderLine.entry 2 "Dan"]) :=
  ⟨rfl, rfl, rfl, rfl, rfl, rfl, rfl, rfl, rfl, rfl, rfl⟩

/-- C5: the `side` argument is normalised case-insensitively with
surrounding whitespace trimmed: "Left", " left ", "LEFT" are accepted as
LEFT and behave identically to "left"; "up", "" and None are rejected as
InvalidSide, the call failing with no mutation. -/
theorem C5_side_normalisation (t : Option EmployeeNode) (m e : String) :
    (TeamTree.insert t m e (some "Left") = TeamTree.insert t m e (some "left"))
  ∧ (TeamTree.insert t m e (some " left ") = TeamTree.insert t m e (some "left"))
  ∧ (TeamTree.insert t m e (some "LEFT") = TeamTree.insert t m e (some "left"))
  ∧ (parseSide (some "Left") = some Side.left)
  ∧ (parseSide (some " left ") = some Side.left)
  ∧ (parseSide (some "LEFT") = some Side.left)
  ∧ (TeamTree.insert t m e (some "up") = ⟨false, t, [ErrMsg.invalidSide]⟩)
  ∧ (TeamTree.insert t m e (some "") = ⟨false, t, [ErrMsg.invalidSide]⟩)
  ∧ (TeamTree.insert t m e none = ⟨false, t, [ErrMsg.invalidSide]⟩) :=
  ⟨rfl, rfl, rfl, rfl, rfl, rfl, rfl, rfl, rfl⟩

/-- C9: each call of the recursive workers terminates within recursion
depth bounded by the tree's current size: with `size t` units of fuel the
fuel-instrumented versions complete and agree with the direct
definitions. -/
theorem C9_termination (m e : String) (sd : Side) (t : EmployeeNode)
    (b : Bool) (lvl : Nat) :
    (insertGoF m e sd (size t) b t = some (insertGo m e sd b t))
  ∧ (preorderF (size t) t lvl = some (preorder t lvl)) :=
  ⟨insertGoF_complete m e sd t (size t) b (height_le_size t),
   preorderF_complete t (size t) lvl (height_le_size t)⟩

/-- C1 counterexample: with root "A", left child "M" whose left slot is
occupied by "X", and right child also named "M" with empty slots, the call
`insert("M","E","left")` — whose first pre-order match is the occupied
left "M" — does not fail: it succeeds and attaches "E" under the second
"M", so the search does continue past the first matching node. -/
theorem C1_counterexample :
    ((TeamTree.insert (some (.mk "A"
        (some (.mk "M" (some (.mk "X" none none)) none))
        (some (.mk "M" none none))))
        "M" "E" (some "left")).ok = true)
  ∧ ((TeamTree.insert (some (.mk "A"
        (some (.mk "M" (some (.mk "X" none none)) none))
        (some (.mk "M" none none))))
        "M" "E" (some "left")).tree
      = some (.mk "A"
          (some (.mk "M" (some (.mk "X" none none)) none))
          (some (.mk "M" (some (.mk "E" none none)) none)))) :=
  ⟨rfl, rfl⟩

/-- C1 (amended): the node used by `insert` is the first node — in
left-to-right depth-first pre-order, but skipping the entire subtree of
any node whose name matches and whose requested slot is occupied — whose
name equals `manager_name` and whose requested slot is empty
(`firstAttachablePath`); an occupied match makes that frame report
SlotOccupied and return failure, after which the search continues with
later siblings instead of stopping; the call fails, attaching nothing
anywhere, exactly when this pruned search reaches no attachable node. -/
theorem C1_amended (root : EmployeeNode) (m e : String) (sd : Side) :
    ((TeamTree.insert (some root) m e (some (sideStr sd))).ok
        = (firstAttachablePath m sd root).isSome)
  ∧ (firstAttachablePath m sd root = none →
      (TeamTree.insert (some root) m e (some (sideStr sd))).tree = some root)
  ∧ (∀ p, firstAttachablePath m sd root = some p →
      (TeamTree.insert (some root) m e (some (sideStr sd))).tree
        = some (attachAt sd e root p)) := by
  obtain ⟨h1, h2, h3⟩ := insertGo_spec m e sd root true
  refine ⟨?_, ?_, ?_⟩ <;>
    simp only [TeamTree.insert, parseSide_sideStr]
  · exact h1
  · intro hnone
    rw [h2 hnone]
  · intro p hp
    rw [h3 p hp]

/-- Witness for C1 (amended) at the counterexample tree: the pruned
search finds the right-hand "M" (path `[R]`) and the insert attaches
there. -/
theorem C1_amended_witness :
    (TeamTree.insert (some (.mk "A"
        (some (.mk "M" (some (.mk "X" none none)) none))
        (some (.mk "M" none none))))
        "M" "E" (some (sideStr Side.left))).tree
      = some (attachAt Side.left "E"
          (.mk "A"
            (some (.mk "M" (some (.mk "X" none none)) none))
            (some (.mk "M" none none)))
          [Dir.R]) :=
  (C1_amended (.mk "A"
      (some (.mk "M" (some (.mk "X" none none)) none))
      (some (.mk "M" none none))) "M" "E" Side.left).2.2 [Dir.R] rfl

/-- C2 counterexample: with root "A" and left child "B" whose left slot is
occupied by "C", the call `insert("B","X","left")` prints SlotOccupied and
then, unwinding to the root, ManagerNotFound as well — although a node
named "B" exists in the tree, so the reported errors are not only
SlotOccupied and ManagerNotFound is not equivalent to the name being
absent. -/
theorem C2_counterexample :
    (TeamTree.insert (some (.mk "A" (some (.mk "B" (some (.mk "C" none none)) none)) none))
       "B" "X" (some "left")).msgs
      = [ErrMsg.slotOccupied "B" "left" "C", ErrMsg.managerNotFound "B"] := rfl

/-- C2 (amended): for a top-level `insert` with a valid side on a
non-empty tree, ManagerNotFound is reported exactly once — appended at the
root frame when the search unwinds, never once per recursive frame — and
it is reported precisely when the call returns failure and the ROOT's name
differs from `manager_name`. In particular, when the root itself is the
occupied match only SlotOccupied is reported, but a failing call whose
occupied match sits deeper reports ManagerNotFound in addition to
SlotOccupied, even though the manager's name does occur in the tree. -/
theorem C2_amended (root : EmployeeNode) (m e s : String) (sd : Side)
    (hs : parseSide (some s) = some sd) :
    (TeamTree.insert (some root) m e (some s)).msgs.count (ErrMsg.managerNotFound m)
      = (if root.name ≠ m ∧ (TeamTree.insert (some root) m e (some s)).ok = false
         then 1 else 0) := by
  have h := insertGo_mnf_count m e sd root true m
  simp only [TeamTree.insert, hs]
  simpa using h

/-- Witness for C2 (amended) at the counterexample tree: the failing call
with a deep occupied match reports ManagerNotFound exactly once. -/
theorem C2_amended_witness :
    (TeamTree.insert
        (some (.mk "A" (some (.mk "B" (some (.mk "C" none none)) none)) none))
        "B" "X" (some "left")).msgs.count (ErrMsg.managerNotFound "B")
      = (if (EmployeeNode.mk "A"
              (some (.mk "B" (some (.mk "C" none none)) none)) none).name ≠ "B"
            ∧ (TeamTree.insert
                (some (.mk "A" (some (.mk "B" (some (.mk "C" none none)) none)) none))
                "B" "X" (some "left")).ok = false
         then 1 else 0) :=
  C2_amended (.mk "A" (some (.mk "B" (some (.mk "C" none none)) none)) none)
    "B" "X" "left" Side.left rfl

/-- C7 counterexample: a call with the tree's root absent but an invalid
side "up" is rejected as InvalidSide — the side check precedes the root
check — not with the NoRoot error the claim requires for every call. -/
theorem C7_counterexample :
    ((TeamTree.insert none "A" "B" (some "up")).msgs = [ErrMsg.invalidSide])
  ∧ (ErrMsg.invalidSide ≠ ErrMsg.noRoot) :=
  ⟨rfl, by decide⟩

/-- C7 (amended): every call to insert made while the root is absent fails
and performs no mutation; it fails with NoRoot when the side argument is
valid, and with InvalidSide when the side argument is invalid (the side
check runs first). -/
theorem C7_amended (m e : String) (s : Option String) :
    ((TeamTree.insert none m e s).ok = false)
  ∧ ((TeamTree.insert none m e s).tree = none)
  ∧ ((parseSide s).isSome → (TeamTree.insert none m e s).msgs = [ErrMsg.noRoot])
  ∧ (parseSide s = none →
      (TeamTree.insert none m e s).msgs = [ErrMsg.invalidSide]) := by
  rcases s with _ | s
  · exact ⟨rfl, rfl, by intro h; simp [parseSide] at h, fun _ => rfl⟩
  · rcases hp : parseSide (some s) with _ | sd
    · refine ⟨?_, ?_, ?_, fun _ => ?_⟩ <;>
        simp [TeamTree.insert, hp]
    · refine ⟨?_, ?_, fun _ => ?_, ?_⟩ <;>
        simp [TeamTree.insert, hp]

/-- Witness for C7 (amended) with the valid side "left". -/
theorem C7_amended_witness :
    (TeamTree.insert none "A" "B" (some "left")).msgs = [ErrMsg.noRoot] :=
  (C7_amended "A" "B" (some "left")).2.2.1 (by decide)

/-- C10 counterexample: the tree whose root "M" has an occupied left slot
holding a child also named "M" (with empty slots) contains a node named
"M" with an empty left slot, yet `insert("M", "", "left")` fails — the
occupied root match prunes everything, so the claim's quantification over
any tree containing a matching node with an empty slot is wrong. -/
theorem C10_counterexample :
    (nameAt (.mk "M" (some (.mk "M" none none)) none) [Dir.L] = some "M")
  ∧ (nodeAt (.mk "M" (some (.mk "M" none none)) none) [Dir.L, Dir.L] = none)
  ∧ ((TeamTree.insert (some (.mk "M" (some (.mk "M" none none)) none))
        "M" "" (some "left")).ok = false) :=
  ⟨rfl, rfl, rfl⟩

/-- C10 (amended): insert performs no validation of the name arguments.
Whenever the pruned search reaches an attachable node (the first pre-order
node with the manager's name and an empty requested slot, subtrees of
occupied matches skipped), `insert(manager_name, "", side)` with a valid
side succeeds and attaches a node whose name is the empty string, and an
`employee_name` equal to an existing node's name — here the matched
manager's own name — is likewise accepted. -/
theorem C10_amended (root : EmployeeNode) (m : String) (sd : Side) (p : List Dir)
    (hp : firstAttachablePath m sd root = some p) :
    (nameAt root p = some m)
  ∧ ((TeamTree.insert (some root) m "" (some (sideStr sd))).ok = true)
  ∧ ((TeamTree.insert (some root) m "" (some (sideStr sd))).tree
      = some (attachAt sd "" root p))
  ∧ (nameAt (attachAt sd "" root p) (p ++ [dirOf sd]) = some "")
  ∧ ((TeamTree.insert (some root) m m (some (sideStr sd))).ok = true)
  ∧ ((TeamTree.insert (some root) m m (some (sideStr sd))).tree
      = some (attachAt sd m root p))
  ∧ (nameAt (attachAt sd m root p) (p ++ [dirOf sd]) = some m) := by
  obtain ⟨nd, hnd, hname, hslot⟩ := fap_sound m sd root p hp
  refine ⟨?_, ?_, ?_, ?_, ?_, ?_, ?_⟩
  · rw [nameAt, hnd]
    simp [hname]
  · simp only [TeamTree.insert, parseSide_sideStr]
    rw [(insertGo_spec m "" sd root true).1, hp]
    rfl
  · simp only [TeamTree.insert, parseSide_sideStr]
    rw [(insertGo_spec m "" sd root true).2.2 p hp]
  · rw [nameAt, attachAt_new sd "" p root nd hnd hslot]
    rfl
  · simp only [TeamTree.insert, parseSide_sideStr]
    rw [(insertGo_spec m m sd root true).1, hp]
    rfl
  · simp only [TeamTree.insert, parseSide_sideStr]
    rw [(insertGo_spec m m sd root true).2.2 p hp]
  · rw [nameAt, attachAt_new sd m p root nd hnd hslot]
    rfl

/-- Witness for C10 (amended): on the single-node tree "M" the pruned
search finds the root itself ( path `[]` ) and both inserts succeed. -/
theorem C10_amended_witness :
    (nameAt (.mk "M" none none) [] = some "M")
  ∧ ((TeamTree.insert (some (.mk "M" none none)) "M" ""
        (some (sideStr Side.left))).ok = true)
  ∧ ((TeamTree.insert (some (.mk "M" none none)) "M" ""
        (some (sideStr Side.left))).tree
      = some (attachAt Side.left "" (.mk "M" none none) []))
  ∧ (nameAt (attachAt Side.left "" (.mk "M" none none) []) [Dir.L] = some "")
  ∧ ((TeamTree.insert (some (.mk "M" none none)) "M" "M"
        (some (sideStr Side.left))).ok = true)
  ∧ ((TeamTree.insert (some (.mk "M" none none)) "M" "M"
        (some (sideStr Side.left))).tree
      = some (attachAt Side.left "M" (.mk "M" none none) []))
  ∧ (nameAt (attachAt Side.left "M" (.mk "M" none none) []) [Dir.L] = some "M") :=
  C10_amended (.mk "M" none none) "M" Side.left [] rfl

theorem nameAt_nil_eq (t : EmployeeNode) : nameAt t [] = some t.name := by
  rw [nameAt, nodeAt_nil]
  rfl

/-- C4: on success exactly one new node holding `employee_name` is created
and linked into the requested (previously empty) slot of a node whose name
is `manager_name`, every other path resolving to the same name as before;
on any failure the returned tree is the input tree itself. -/
theorem C4_frame (t : Option EmployeeNode) (m e : String) (s : Option String) :
    ((TeamTree.insert t m e s).ok = false → (TeamTree.insert t m e s).tree = t)
  ∧ ((TeamTree.insert t m e s).ok = true →
      ∃ root sd p nd,
        t = some root ∧ parseSide s = some sd
        ∧ nodeAt root p = some nd ∧ nd.name = m ∧ slotOf sd nd = none
        ∧ (TeamTree.insert t m e s).tree = some (attachAt sd e root p)
        ∧ nameAt root (p ++ [dirOf sd]) = none
        ∧ nameAt (attachAt sd e root p) (p ++ [dirOf sd]) = some e
        ∧ size (attachAt sd e root p) = size root + 1
        ∧ (∀ q, q ≠ p ++ [dirOf sd] →
            nameAt (attachAt sd e root p) q = nameAt root q)) := by
  rcases s with _ | s
  · exact ⟨fun _ => rfl, fun h0 => by simp [TeamTree.insert] at h0⟩
  · rcases hp : parseSide (some s) with _ | sd
    · refine ⟨fun _ => ?_, fun h0 => ?_⟩
      · simp [TeamTree.insert, hp]
      · simp [TeamTree.insert, hp] at h0
    · rcases t with _ | root
      · refine ⟨fun _ => ?_, fun h0 => ?_⟩
        · simp [TeamTree.insert, hp]
        · simp [TeamTree.insert, hp] at h0
      · obtain ⟨h1, h2, h3⟩ := insertGo_spec m e sd root true
        refine ⟨fun h0 => ?_, fun h0 => ?_⟩
        · simp only [TeamTree.insert, hp] at h0 ⊢
          have hF : firstAttachablePath m sd root = none := by
            rw [h1] at h0
            exact Option.not_isSome_iff_eq_none.mp (by simp [h0])
          rw [h2 hF]
        · simp only [TeamTree.insert, hp] at h0 ⊢
          have hF : ∃ p, firstAttachablePath m sd root = some p := by
            rw [h1] at h0
            exact Option.isSome_iff_exists.mp h0
          obtain ⟨p, hpf⟩ := hF
          obtain ⟨nd, hnd, hname, hslot⟩ := fap_sound m sd root p hpf
          refine ⟨root, sd, p, nd, rfl, rfl, hnd, hname, hslot, ?_, ?_, ?_, ?_, ?_⟩
          · rw [h3 p hpf]
          · rw [nameAt, nodeAt_append [dirOf sd] p root, hnd]
            have hred : nodeAt nd [dirOf sd] = none := by
              rw [nodeAt_single, hslot]
            simp [hred]
          · rw [nameAt, attachAt_new sd e p root nd hnd hslot]
            rfl
          · exact attachAt_size sd e p root nd hnd hslot
          · exact attachAt_preserve sd e p root nd hnd hslot

/-- Witness for C4 at a concrete successful call. -/
theorem C4_frame_witness :
    ∃ root sd p nd,
      (some (EmployeeNode.mk "Alice" none none) : Option EmployeeNode) = some root
      ∧ parseSide (some "left") = some sd
      ∧ nodeAt root p = some nd ∧ nd.name = "Alice" ∧ slotOf sd nd = none
      ∧ (TeamTree.insert (some (.mk "Alice" none none)) "Alice" "Bob"
          (some "left")).tree = some (attachAt sd "Bob" root p)
      ∧ nameAt root (p ++ [dirOf sd]) = none
      ∧ nameAt (attachAt sd "Bob" root p) (p ++ [dirOf sd]) = some "Bob"
      ∧ size (attachAt sd "Bob" root p) = size root + 1
      ∧ (∀ q, q ≠ p ++ [dirOf sd] →
          nameAt (attachAt sd "Bob" root p) q = nameAt root q) :=
  (C4_frame (some (.mk "Alice" none none)) "Alice" "Bob" (some "left")).2 rfl

/-- C8: once a root exists, no core operation removes it or any other
node: every `insert` returns a tree that still has a root with the same
name, whose size has not shrunk, and in which every path that resolved to
a node before still resolves to a node with the same name; and `render`
never fails — it always produces at least one line (and, being a pure
function of the tree, mutates nothing). -/
theorem C8_invariant (t : Option EmployeeNode) (m e : String)
    (s : Option String) :
    (∀ root, t = some root →
       ∃ root', (TeamTree.insert t m e s).tree = some root'
         ∧ root'.name = root.name
         ∧ size root ≤ size root'
         ∧ (∀ q x, nameAt root q = some x → nameAt root' q = some x))
  ∧ (render t ≠ []) := by
  constructor
  · intro root h0
    subst h0
    rcases s with _ | s
    · exact ⟨root, rfl, rfl, le_refl _, fun q x hq => hq⟩
    · rcases hp : parseSide (some s) with _ | sd
      · refine ⟨root, ?_, rfl, le_refl _, fun q x hq => hq⟩
        simp [TeamTree.insert, hp]
      · obtain ⟨h1, h2, h3⟩ := insertGo_spec m e sd root true
        rcases hpf : firstAttachablePath m sd root with _ | p
        · refine ⟨root, ?_, rfl, le_refl _, fun q x hq => hq⟩
          simp only [TeamTree.insert, hp]
          rw [h2 hpf]
        · obtain ⟨nd, hnd, hname, hslot⟩ := fap_sound m sd root p hpf
          refine ⟨attachAt sd e root p, ?_, ?_, ?_, ?_⟩
          · simp only [TeamTree.insert, hp]
            rw [h3 p hpf]
          · have := attachAt_preserve sd e p root nd hnd hslot [] (by
              intro hcontra
              have : (p ++ [dirOf sd]).length = 0 := by rw [← hcontra]; rfl
              simp at this)
            rw [nameAt_nil_eq, nameAt_nil_eq] at this
            exact Option.some.inj this
          · rw [attachAt_size sd e p root nd hnd hslot]
            omega
          · intro q x hq
            by_cases hqe : q = p ++ [dirOf sd]
            · subst hqe
              rw [nameAt, nodeAt_append [dirOf sd] p root, hnd] at hq
              have hred : nodeAt nd [dirOf sd] = none := by
                rw [nodeAt_single, hslot]
              simp [hred] at hq
            · rw [attachAt_preserve sd e p root nd hnd hslot q hqe]
              exact hq
  · rcases t with _ | root
    · simp [render]
    · cases root with
      | mk n l r =>
        simp only [render, preorder_mk]
        simp

/-- Witness for C8 at a concrete tree and insert. -/
theorem C8_invariant_witness :
    ∃ root', (TeamTree.insert (some (.mk "Alice" none none)) "Alice" "Bob"
        (some "left")).tree = some root'
      ∧ root'.name = (EmployeeNode.mk "Alice" none none).name
      ∧ size (.mk "Alice" none none) ≤ size root'
      ∧ (∀ q x, nameAt (.mk "Alice" none none) q = some x →
          nameAt root' q = some x) :=
  (C8_invariant (some (.mk "Alice" none none)) "Alice" "Bob" (some "left")).1
    (.mk "Alice" none none) rfl

/-- C6: with no root, `render` produces the single empty indicator line;
with a root, `render` lists exactly the tree's nodes — one line per
pre-order path, the paths being pairwise distinct and as many as the tree
has nodes, existing exactly for the nodes of the tree — in pre-order with
each node's depth equal to its distance (path length) from the root; and
each successful insert grows the tree by exactly one node while keeping
every existing node, so after any sequence of successful inserts the
render lists the root and every inserted node exactly once. -/
theorem C6_render_preorder :
    (render none = [RenderLine.emptyTeam])
  ∧ (∀ root, render (some root)
      = (pathsPre root).map (fun p => RenderLine.entry p.length (nameAtD root p)))
  ∧ (∀ root, (pathsPre root).Nodup)
  ∧ (∀ root, (pathsPre root).length = size root)
  ∧ (∀ root p, p ∈ pathsPre root ↔ (nodeAt root p).isSome)
  ∧ (∀ root m e s, (TeamTree.insert (some root) m e s).ok = true →
      ∃ root', (TeamTree.insert (some root) m e s).tree = some root'
        ∧ size root' = size root + 1
        ∧ ∀ q, (nodeAt root q).isSome → (nodeAt root' q).isSome) := by
  refine ⟨rfl, ?_, pathsPre_nodup, pathsPre_length, mem_pathsPre, ?_⟩
  · intro root
    simp only [render]
    rw [preorder_eq_paths root 0, List.map_map]
    apply List.map_congr_left
    intro p _
    simp
  · intro root m e s h0
    rcases s with _ | s
    · simp [TeamTree.insert] at h0
    · rcases hp : parseSide (some s) with _ | sd
      · simp [TeamTree.insert, hp] at h0
      · obtain ⟨h1, h2, h3⟩ := insertGo_spec m e sd root true
        simp only [TeamTree.insert, hp] at h0 ⊢
        have hF : ∃ p, firstAttachablePath m sd root = some p := by
          rw [h1] at h0
          exact Option.isSome_iff_exists.mp h0
        obtain ⟨p, hpf⟩ := hF
        obtain ⟨nd, hnd, hname, hslot⟩ := fap_sound m sd root p hpf
        refine ⟨attachAt sd e root p, by rw [h3 p hpf],
          attachAt_size sd e p root nd hnd hslot, ?_⟩
        intro q hq
        by_cases hqe : q = p ++ [dirOf sd]
        · subst hqe
          rw [attachAt_new sd e p root nd hnd hslot]
          rfl
        · have hpres := attachAt_preserve sd e p root nd hnd hslot q hqe
          rcases hdq : nodeAt root q with _ | y
          · rw [hdq] at hq
            simp at hq
          · rcases hdq2 : nodeAt (attachAt sd e root p) q with _ | z
            · rw [nameAt, nameAt, hdq, hdq2] at hpres
              simp at hpres
            · simp [hdq2]

/-- Witness for C6's insert conjunct at a concrete successful call. -/
theorem C6_render_preorder_witness :
    ∃ root', (TeamTree.insert (some (.mk "Alice" none none)) "Alice" "Bob"
        (some "left")).tree = some root'
      ∧ size root' = size (.mk "Alice" none none) + 1
      ∧ ∀ q, (nodeAt (.mk "Alice" none none) q).isSome →
          (nodeAt root' q).isSome :=
  C6_render_preorder.2.2.2.2.2 (.mk "Alice" none none) "Alice" "Bob"
    (some "left") rfl
